import Mathlib

/-!
Verification of the core algorithms of the `smartcommit` CLI (an
AI-assisted git commit generator) against its natural-language
specification.

The JavaScript sources are shallowly embedded:

* string-processing helpers mirror the JS string primitives
  (`split('\n')`, `trim()`, `startsWith`, `includes`) as structurally
  recursive functions on `List Char`, so that all definitions are
  executable and theorems about concrete inputs can be settled by
  `decide`;
* `GitManager.extractChangedLines` / `getContextBlocks` (diff windowing)
  become pure list functions;
* `GitManager.stageSelectedFiles` is embedded as a function producing the
  exact sequence of git index operations it performs, together with an
  abstract index semantics for those operations;
* `AIManager.generateCommitMessage` (retry engine) and
  `AIManager.parseCommitMessage` (parse + heuristic fallback) are
  embedded with the completion service and the strict JSON parse as
  explicit oracles;
* `SmartCommit.processGroupedCommit` (two-pass accept/skip/cancel
  orchestration) is embedded as a pure function from decision and
  commit-outcome oracles to the trace of user-visible events.
-/

namespace Smartcommit

/-! ## JS string primitives on `List Char`

JS strings are modelled as Lean `String`s / `List Char`.  (JS `.length`
counts UTF-16 code units while we count characters; the two agree on all
characters in the Basic Multilingual Plane, and none of the constants in
the source leave it.) -/

/-- The characters matched by the JS regex class `\s` and removed by
`String.prototype.trim`, restricted to ASCII (space, tab, line feed,
carriage return, vertical tab, form feed). -/
def isJsSpace (c : Char) : Bool :=
  c = ' ' || c = '\t' || c = '\n' || c = '\r' || c = Char.ofNat 11 || c = Char.ofNat 12

/-- `s.split('\n')` on the character list: `splitOnNl "" = [""]`,
`splitOnNl "a\nb" = ["a", "b"]`. -/
def splitOnNl : List Char → List (List Char)
  | [] => [[]]
  | c :: cs =>
    let r := splitOnNl cs
    if c = '\n' then [] :: r
    else
      match r with
      | [] => [[c]]
      | l :: ls => (c :: l) :: ls

/-- JS `s.trim()`: remove leading and trailing whitespace. -/
def trimChars (cs : List Char) : List Char :=
  (cs.dropWhile isJsSpace).rdropWhile isJsSpace

/-- Whether `pat` occurs at the head of `cs` (JS `startsWith`). -/
def startsWithSeq : List Char → List Char → Bool
  | [], _ => true
  | _ :: _, [] => false
  | p :: ps, c :: cs => p = c && startsWithSeq ps cs

/-- Whether `pat` occurs anywhere in `cs` (JS `includes`). -/
def containsSeq (pat : List Char) : List Char → Bool
  | [] => pat.isEmpty
  | c :: cs => startsWithSeq pat (c :: cs) || containsSeq pat cs

/-- Longest digit prefix of a character list, with the remainder. -/
def leadingDigits : List Char → List Char × List Char
  | [] => ([], [])
  | c :: cs =>
    if c.isDigit then
      let (d, r) := leadingDigits cs
      (c :: d, r)
    else ([], c :: cs)

/-- Decimal value of a digit string (JS `parseInt` on the digit-only
capture groups of the hunk-header regex). -/
def natOfDigits : List Char → Nat :=
  List.foldl (fun n c => n * 10 + (c.toNat - 48)) 0

/-- Read one or more digits (regex `(\d+)`), returning the parsed number
and the rest of the input. -/
def readNat (cs : List Char) : Option (Nat × List Char) :=
  let (d, r) := leadingDigits cs
  if d.isEmpty then none else some (natOfDigits d, r)

/-- Read `\s+`: at least one whitespace character, greedily. -/
def skipWs1 : List Char → Option (List Char)
  | [] => none
  | c :: cs => if isJsSpace c then some (cs.dropWhile isJsSpace) else none

/-- Read the optional `(?:,(\d+))?` group.  If a comma is present it must
be followed by digits (the regex cannot match the comma any other way),
otherwise the group is skipped. -/
def readOptCount (cs : List Char) : Option (Option Nat × List Char) :=
  match cs with
  | ',' :: rest =>
    match readNat rest with
    | some (n, r) => some (some n, r)
    | none => none
  | _ => some (none, cs)

/-! ## GitManager.extractChangedLines (src/src/utils/GitManager.js 158-178) -/

/-- The hunk-header regex
`/^@@\s+-(\d+)(?:,(\d+))?\s+\+(\d+)(?:,(\d+))?\s+@@/` applied to one
line of diff output, returning the four capture groups
`(oldStart, oldCount?, newStart, newCount?)`.  The regex is anchored at
the start only; trailing text after the closing `@@` is ignored. -/
def matchHunkHeader (line : List Char) : Option (Nat × Option Nat × Nat × Option Nat) :=
  match line with
  | '@' :: '@' :: rest =>
    match skipWs1 rest with
    | none => none
    | some r1 =>
      match r1 with
      | '-' :: r2 =>
        match readNat r2 with
        | none => none
        | some (a, r3) =>
          match readOptCount r3 with
          | none => none
          | some (b, r4) =>
            match skipWs1 r4 with
            | none => none
            | some r5 =>
              match r5 with
              | '+' :: r6 =>
                match readNat r6 with
                | none => none
                | some (c, r7) =>
                  match readOptCount r7 with
                  | none => none
                  | some (d, r8) =>
                    match skipWs1 r8 with
                    | none => none
                    | some r9 =>
                      match r9 with
                      | '@' :: '@' :: _ => some (a, b, c, d)
                      | _ => none
              | _ => none
      | _ => none
  | _ => none

/-- The effective new-file line count of a hunk:
`parseInt(hunkMatch[4]) || 1` in the source.  JS `||` falls back to `1`
both when the count group is absent (`parseInt` yields `NaN`) and when
it parses to `0` (`0` is falsy). -/
def effectiveNewCount (newCountOpt : Option Nat) : Nat :=
  match newCountOpt with
  | none => 1
  | some k => if k = 0 then 1 else k

/-- `GitManager.extractChangedLines`: scan a unified diff for hunk
headers; for each, record the new-file lines
`newStart .. newStart + newCount - 1`; deduplicate and sort ascending.
(JS `[...new Set(xs)]` keeps first occurrences; the subsequent ascending
sort makes that order irrelevant.) -/
def extractChangedLines (diffOutput : String) : List Nat :=
  let lines := splitOnNl diffOutput.toList
  let changedLines := lines.flatMap fun line =>
    match matchHunkHeader line with
    | some (_, _, newStart, newCountOpt) =>
      List.range' newStart (effectiveNewCount newCountOpt)
    | none => []
  List.insertionSort (· ≤ ·) changedLines.dedup

/-- The changed-line extraction as worded by the claim: the new-file
count `d` defaults to `1` only when the `,d` group is omitted, so an
explicit `+c,0` range covers no lines.  Kept separate from
`extractChangedLines` (the embedding of the source) to compare the
two. -/
def claimedExtractChangedLines (diffOutput : String) : List Nat :=
  let lines := splitOnNl diffOutput.toList
  let changedLines := lines.flatMap fun line =>
    match matchHunkHeader line with
    | some (_, _, newStart, newCountOpt) =>
      List.range' newStart (newCountOpt.getD 1)
    | none => []
  List.insertionSort (· ≤ ·) changedLines.dedup

/-! ## GitManager.getContextBlocks (src/src/utils/GitManager.js 180-219) -/

/-- The per-changed-line context window
`[max(1, lineNum - radius), min(totalLines, lineNum + radius)]`. -/
def lineWindow (radius totalLines lineNum : Nat) : Nat × Nat :=
  (max 1 (lineNum - radius), min totalLines (lineNum + radius))

/-- The interval-merging loop of `getContextBlocks`, operating on the
current open block and the remaining windows: a window starting at or
before `currentBlock.endLine + 1` extends the current block, otherwise
the current block is emitted and the window opens a new one. -/
def mergeGo (cur : Nat × Nat) : List (Nat × Nat) → List (Nat × Nat)
  | [] => [cur]
  | (s, e) :: rest =>
    if s ≤ cur.2 + 1 then mergeGo (cur.1, max cur.2 e) rest
    else cur :: mergeGo (s, e) rest

/-- Merge a list of windows into blocks (the whole loop of
`getContextBlocks`, lines 184-207). -/
def mergeWindows : List (Nat × Nat) → List (Nat × Nat)
  | [] => []
  | w :: ws => mergeGo w ws

/-- `GitManager.getContextBlocks` restricted to the block boundaries:
map each changed line to its window and merge.  The source additionally
decorates each block with rendered lines; see `blockLines`. -/
def getContextBlocks (changedLines : List Nat) (radius totalLines : Nat) : List (Nat × Nat) :=
  mergeWindows (changedLines.map (lineWindow radius totalLines))

/-- The rendered `lines` field the source attaches to each block
(lines 211-216): `"<i>: <fileLines[i-1] or ''>"` for `i` in the block's
range. -/
def blockLines (fileLines : List String) (b : Nat × Nat) : List String :=
  (List.range' b.1 (b.2 + 1 - b.1)).map fun i => toString i ++ ": " ++ fileLines.getD (i - 1) ""

/-! ## GitManager.stageSelectedFiles (src/src/utils/GitManager.js 316-336) -/

/-- A git index operation issued by `stageSelectedFiles`. -/
inductive GitOp
  | resetHead
  | add (path : String)
  deriving DecidableEq, Repr

/-- `GitManager.stageSelectedFiles`, embedded as the sequence of index
operations it performs.  The guard throws (before touching the index)
when the selection is `null` (`none`) or empty; otherwise the index is
reset to HEAD and each selected file is added individually, in order.
Per the collaborator contract (spec section 6) `add` and `resetToHead`
themselves do not fail. -/
def stageSelectedFiles (selectedFiles : Option (List String)) : Except String (List GitOp) :=
  match selectedFiles with
  | none => .error "Failed to stage selected files: No files selected for staging"
  | some files =>
    if files.length = 0 then
      .error "Failed to stage selected files: No files selected for staging"
    else
      .ok (GitOp.resetHead :: files.map GitOp.add)

/-- Abstract index semantics: the staged set, as a list of paths.
`reset(['HEAD'])` clears it; `add(file)` stages the path (any pending
working-tree change of other paths stays unstaged). -/
def applyGitOp (staged : List String) : GitOp → List String
  | .resetHead => []
  | .add p => if p ∈ staged then staged else staged ++ [p]

/-- Run a sequence of index operations on an initial staged set. -/
def runGitOps (staged : List String) (ops : List GitOp) : List String :=
  ops.foldl applyGitOp staged

/-! ## GitManager.commitAndPush (src/src/utils/GitManager.js 401-426) -/

/-- The commit message built by `commitAndPush`:
`description ? summary + "\n\n" + description : summary`.  An absent
(`undefined`/`null`) description is `none`; JS falsiness makes the empty
string behave like an absent one. -/
def commitMessage (summary : String) (description : Option String) : String :=
  match description with
  | none => summary
  | some d => if d = "" then summary else summary ++ "\n\n" ++ d

/-! ## SmartCommit.executeCommit history trimming
(src/src/core/SmartCommit.js 204-210 and the grouped variant) -/

/-- The history update in `executeCommit`: push the new record, and if
the length now exceeds 10, `splice(0, length - 10)` the oldest records
before the history is handed to `saveHistory`. -/
def saveHistoryAfterCommit {α : Type} (history : List α) (commitRecord : α) : List α :=
  let h := history ++ [commitRecord]
  if h.length > 10 then h.drop (h.length - 10) else h

/-! ## AIManager.parseCommitMessage (src/src/utils/AIManager.js 300-388) -/

/-- The normalized commit proposal returned by `parseCommitMessage`. -/
structure CommitData where
  summary : String
  description : String
  type : String
  scope : Option String
  breaking : Bool
  issues : List String
  changes : List String
  selectedFiles : List String
  fullMessage : String
  parseSuccess : Bool
  deriving DecidableEq, Repr

/-- `Char.ofNat 123` is the opening curly brace. -/
def lbraceChar : Char := Char.ofNat 123

/-- `Char.ofNat 125` is the closing curly brace. -/
def rbraceChar : Char := Char.ofNat 125

/-- `Char.ofNat 34` is the double quote. -/
def dquoteChar : Char := Char.ofNat 34

/-- Whether the first character of `t` is `c` (JS `startsWith` with a
one-character pattern). -/
def firstIs (c : Char) : List Char → Bool
  | [] => false
  | x :: _ => x = c

/-- The line filter of the heuristic fallback (AIManager.js 355-360): a
trimmed line is kept when it is truthy, does not start with a curly
brace or a double quote, does not contain `JSON`, and is strictly
longer than 10 characters. -/
def fallbackLineOk (t : List Char) : Bool :=
  !t.isEmpty
    && !firstIs lbraceChar t
    && !firstIs rbraceChar t
    && !firstIs dquoteChar t
    && !containsSeq ['J', 'S', 'O', 'N'] t
    && decide (t.length > 10)

/-- The fallback loop (AIManager.js 353-367): the first qualifying line
becomes the summary, every later qualifying line is appended to the
description followed by a newline. -/
def fallbackScan : List (List Char) → Option (List Char) → List Char → Option (List Char) × List Char
  | [], summary, description => (summary, description)
  | line :: rest, summary, description =>
    let trimmed := trimChars line
    if fallbackLineOk trimmed then
      match summary with
      | none => fallbackScan rest (some trimmed) description
      | some s => fallbackScan rest (some s) (description ++ trimmed ++ ['\n'])
    else fallbackScan rest summary description

/-- The text-parsing fallback of `parseCommitMessage` (AIManager.js
345-387), entered when the strict JSON path throws.  `summary = none`
models the JS `summary` still being the initial `''` (the final
`summary && summary.length > 0` check).  `description.trim() ||
'Various updates and improvements'` falls back on the default exactly
when the trimmed description is empty. -/
def parseFallbackText (aiResponse : String) : Option CommitData :=
  let lines := splitOnNl (trimChars aiResponse.toList)
  let scanned := fallbackScan lines none []
  match scanned.1 with
  | none => none
  | some summary =>
    some
      { summary := ⟨summary⟩
        description :=
          if (trimChars scanned.2).isEmpty then "Various updates and improvements"
          else ⟨trimChars scanned.2⟩
        type := "chore"
        scope := none
        breaking := false
        issues := []
        changes := []
        selectedFiles := []
        fullMessage :=
          if scanned.2.isEmpty then ⟨summary⟩
          else ⟨summary ++ '\n' :: '\n' :: trimChars scanned.2⟩
        parseSuccess := false }

/-- `AIManager.parseCommitMessage`: try the strict JSON path first
(AIManager.js 301-343 — markdown fence stripping, `JSON.parse`, summary
validation and change/issue appending — abstracted as the oracle
`strict`, where `none` means that path threw), then fall back to
heuristic text parsing. -/
def parseCommitMessage (strict : String → Option CommitData) (aiResponse : String) :
    Option CommitData :=
  match strict aiResponse with
  | some commitData => some commitData
  | none => parseFallbackText aiResponse

/-! ## AIManager.generateCommitMessage (src/src/utils/AIManager.js 18-91) -/

/-- One call to the completion-service collaborator: the axios POST
either throws (network/service error with a message) or returns the
response text. -/
inductive ApiResult
  | fail (msg : String)
  | ok (text : String)

/-- `this.maxRetries = 3` set in the `AIManager` constructor. -/
def maxRetries : Nat := 3

/-- The body of one retry-loop iteration up to the success check: call
the service, parse, and succeed only on a parse result with a truthy
summary (`if (commitData && commitData.summary)`); anything else is the
attempt's error. -/
def attemptOutcome (completions : Nat → ApiResult) (strict : String → Option CommitData)
    (attempt : Nat) : Except String CommitData :=
  match completions attempt with
  | .fail msg => .error msg
  | .ok text =>
    match parseCommitMessage strict text with
    | some commitData =>
      if commitData.summary = "" then
        .error "Generated commit message could not be parsed or was empty"
      else .ok commitData
    | none => .error "Generated commit message could not be parsed or was empty"

/-- What one run of the retry engine did: how many times the completion
service was invoked, the backoff delays slept (in milliseconds,
`Math.pow(2, attempt) * 1000`), and the final outcome. -/
structure GenTrace where
  calls : Nat
  delays : List Nat
  result : Except String CommitData
  deriving Repr

/-- The retry loop of `generateCommitMessage` over the listed attempt
numbers.  On failure of the last attempt (`attempt === this.maxRetries`)
a fatal error wrapping the last underlying message is raised; on an
earlier failure the engine sleeps `2^attempt * 1000` ms and retries. -/
def runAttempts (completions : Nat → ApiResult) (strict : String → Option CommitData)
    (maxR : Nat) : List Nat → GenTrace
  | [] => ⟨0, [], .error "no attempts"⟩
  | [attempt] =>
    match attemptOutcome completions strict attempt with
    | .ok commitData => ⟨1, [], .ok commitData⟩
    | .error msg =>
      ⟨1, [],
        .error ("Failed to generate commit message after " ++ toString maxR
          ++ " attempts. Last error: " ++ msg)⟩
  | attempt :: next :: rest =>
    match attemptOutcome completions strict attempt with
    | .ok commitData => ⟨1, [], .ok commitData⟩
    | .error _ =>
      let t := runAttempts completions strict maxR (next :: rest)
      ⟨t.calls + 1, (2 ^ attempt * 1000) :: t.delays, t.result⟩

/-- `AIManager.generateCommitMessage`: attempts `1 .. maxRetries` with
the completion service and strict-parse collaborators as oracles. -/
def generateCommitMessage (completions : Nat → ApiResult)
    (strict : String → Option CommitData) : GenTrace :=
  runAttempts completions strict maxRetries (List.range' 1 maxRetries)

/-! ## SmartCommit.processGroupedCommit (the grouped-commit
orchestrator, src/unnamed/part_012 lines 208-272) -/

/-- A review decision for one proposal (`confirmGroupedCommit` returns
`'accept' | 'skip' | 'cancel'`; auto mode always yields `accept`). -/
inductive Action
  | accept
  | skip
  | cancel
  deriving DecidableEq, Repr

/-- A user-visible event of one grouped run, in order: a proposal being
offered in pass 1 or pass 2, a commit succeeding or failing
(`executeCommit` throwing is caught per-proposal), the `Operation
cancelled` message, the `N commit(s) were already applied` warning, and
the pass-2 `Skipping commit.` message. -/
inductive GEvent (α : Type)
  | offer1 (p : α)
  | offer2 (p : α)
  | commitOk (p : α)
  | commitFail (p : α)
  | cancelMsg
  | warnCount (n : Nat)
  | declineMsg (p : α)
  deriving DecidableEq, Repr

variable {α : Type}

/-- The first pass of `processGroupedCommit` (lines 211-241), over the
remaining proposals with the running committed count.  Returns the event
trace, the skipped proposals in order, the committed count, and whether
the run was cancelled (`process.exit(0)` inside the loop). -/
def runFirstPass (d1 : α → Action) (applyOk : α → Bool) :
    List α → Nat → List (GEvent α) × List α × Nat × Bool
  | [], count => ([], [], count, false)
  | p :: rest, count =>
    match d1 p with
    | .accept =>
      if applyOk p then
        let r := runFirstPass d1 applyOk rest (count + 1)
        (.offer1 p :: .commitOk p :: r.1, r.2.1, r.2.2.1, r.2.2.2)
      else
        let r := runFirstPass d1 applyOk rest count
        (.offer1 p :: .commitFail p :: r.1, r.2.1, r.2.2.1, r.2.2.2)
    | .skip =>
      let r := runFirstPass d1 applyOk rest count
      (.offer1 p :: r.1, p :: r.2.1, r.2.2.1, r.2.2.2)
    | .cancel =>
      (.offer1 p :: .cancelMsg :: (if count > 0 then [.warnCount count] else []),
        [], count, true)

/-- The second pass of `processGroupedCommit` (lines 243-268) over the
skipped proposals.  Note the `else` branch: any non-accept decision —
skip or cancel alike — prints `Skipping commit.` and moves on to the
next skipped proposal. -/
def runSecondPass (d2 : α → Action) (applyOk : α → Bool) :
    List α → Nat → List (GEvent α) × Nat
  | [], count => ([], count)
  | p :: rest, count =>
    match d2 p with
    | .accept =>
      if applyOk p then
        let r := runSecondPass d2 applyOk rest (count + 1)
        (.offer2 p :: .commitOk p :: r.1, r.2)
      else
        let r := runSecondPass d2 applyOk rest count
        (.offer2 p :: .commitFail p :: r.1, r.2)
    | _ =>
      let r := runSecondPass d2 applyOk rest count
      (.offer2 p :: .declineMsg p :: r.1, r.2)

/-- `SmartCommit.processGroupedCommit`, with the pass-1 and pass-2
decisions (`confirmGroupedCommit`) and the per-proposal apply outcome
(`executeCommit` succeeding or throwing) as oracles.  Returns the event
trace and the final committed count.  A pass-1 cancel exits the process,
so the second pass runs only when pass 1 was not cancelled. -/
def processGroupedCommit (d1 d2 : α → Action) (applyOk : α → Bool)
    (proposals : List α) : List (GEvent α) × Nat :=
  let r1 := runFirstPass d1 applyOk proposals 0
  if r1.2.2.2 then (r1.1, r1.2.2.1)
  else
    let r2 := runSecondPass d2 applyOk r1.2.1 r1.2.2.1
    (r1.1 ++ r2.1, r2.2)

/-- The proposals offered to the user, in order, in either pass. -/
def offersOf : List (GEvent α) → List α :=
  List.filterMap fun e =>
    match e with
    | .offer1 p => some p
    | .offer2 p => some p
    | _ => none

/-- The per-proposal apply outcomes recorded in a trace, in order:
`(p, true)` for a successful commit of `p`, `(p, false)` for a failed
one. -/
def resultsOf : List (GEvent α) → List (α × Bool) :=
  List.filterMap fun e =>
    match e with
    | .commitOk p => some (p, true)
    | .commitFail p => some (p, false)
    | _ => none

/-- The events one proposal contributes to the pass-1 trace. -/
def pass1Events (d1 : α → Action) (applyOk : α → Bool) (p : α) : List (GEvent α) :=
  .offer1 p ::
    match d1 p with
    | .accept => [if applyOk p then .commitOk p else .commitFail p]
    | _ => []

/-- The events one proposal contributes to the pass-2 trace. -/
def pass2Events (d2 : α → Action) (applyOk : α → Bool) (p : α) : List (GEvent α) :=
  .offer2 p ::
    match d2 p with
    | .accept => [if applyOk p then .commitOk p else .commitFail p]
    | _ => [.declineMsg p]

/-- The proposals of `l` accepted under decision `d`. -/
def acceptedOf (d : α → Action) (l : List α) : List α :=
  l.filter fun p => decide (d p = Action.accept)

/-- The proposals of `l` skipped under decision `d`. -/
def skippedOf (d : α → Action) (l : List α) : List α :=
  l.filter fun p => decide (d p = Action.skip)

/-- The number of successful commits a pass over `l` adds to the
committed count. -/
def successCount (d : α → Action) (applyOk : α → Bool) (l : List α) : Nat :=
  ((acceptedOf d l).filter applyOk).length

/-! ## Theorems -/

/-- Membership in the fold that stages files one by one. -/
theorem mem_foldl_add (files : List String) :
    ∀ (acc : List String) (p : String),
      p ∈ files.foldl (fun st f => if f ∈ st then st else st ++ [f]) acc ↔
        p ∈ acc ∨ p ∈ files := by
  induction files with
  | nil => simp
  | cons f fs ih =>
    intro acc p
    simp only [List.foldl_cons]
    rw [ih]
    by_cases hf : f ∈ acc
    · simp only [if_pos hf, List.mem_cons]
      constructor
      · rintro (h | h)
        · exact Or.inl h
        · exact Or.inr (Or.inr h)
      · rintro (h | h | h)
        · exact Or.inl h
        · exact Or.inl (h ▸ hf)
        · exact Or.inr h
    · simp only [if_neg hf, List.mem_append, List.mem_cons, List.not_mem_nil, or_false]
      tauto

/-- C3: `stageSelectedFiles` fails (with a StagingError, before issuing
any index operation) exactly when the selection is `null` or empty; on a
non-empty selection it issues a reset-to-HEAD first and then one add per
listed path in order, and the resulting staged set equals exactly the
input file set, for every initial index state. -/
theorem stageSelectedFiles_spec (selectedFiles : Option (List String)) :
    ((∃ e, stageSelectedFiles selectedFiles = .error e) ↔
      selectedFiles = none ∨ selectedFiles = some []) ∧
    ∀ files, selectedFiles = some files → files ≠ [] →
      stageSelectedFiles selectedFiles = .ok (GitOp.resetHead :: files.map GitOp.add) ∧
      ∀ staged p, p ∈ runGitOps staged (GitOp.resetHead :: files.map GitOp.add) ↔ p ∈ files := by
  constructor
  · cases selectedFiles with
    | none => simp [stageSelectedFiles]
    | some files =>
      by_cases hf : files = []
      · subst hf; simp [stageSelectedFiles]
      · have hlen : ¬(files.length = 0) := by
          simpa [List.length_eq_zero] using hf
        simp [stageSelectedFiles, hlen, hf]
  · intro files hsel hne
    subst hsel
    have hlen : ¬(files.length = 0) := by
      simpa [List.length_eq_zero] using hne
    refine ⟨by simp [stageSelectedFiles, hlen], fun staged p => ?_⟩
    have hrun : runGitOps staged (GitOp.resetHead :: files.map GitOp.add) =
        files.foldl (fun st f => if f ∈ st then st else st ++ [f]) [] := by
      simp only [runGitOps, List.foldl_cons, applyGitOp, List.foldl_map]
    rw [hrun, mem_foldl_add]
    simp

/-- C3 witness: the selection `["a.txt"]` stages exactly `a.txt`
whatever was staged before, and the empty selection fails. -/
theorem stageSelectedFiles_spec_witness :
    stageSelectedFiles (some ["a.txt"]) = .ok [GitOp.resetHead, GitOp.add "a.txt"] ∧
    ("a.txt" ∈ runGitOps ["other.txt"] [GitOp.resetHead, GitOp.add "a.txt"] ↔
      "a.txt" ∈ ["a.txt"]) ∧
    ((∃ e, stageSelectedFiles (some ([] : List String)) = .error e) ↔
      (some ([] : List String)) = none ∨ (some ([] : List String)) = some []) := by
  refine ⟨?_, ?_, (stageSelectedFiles_spec (some [])).1⟩
  · exact ((stageSelectedFiles_spec (some ["a.txt"])).2 ["a.txt"] rfl (by decide)).1
  · exact ((stageSelectedFiles_spec (some ["a.txt"])).2 ["a.txt"] rfl (by decide)).2
      ["other.txt"] "a.txt"

/-- C9: the commit message handed to `git.commit` is the summary alone
when the description is absent or empty, and the summary, a blank line,
and the description otherwise. -/
theorem commitMessage_spec (summary d : String) :
    commitMessage summary none = summary ∧
    commitMessage summary (some "") = summary ∧
    (d ≠ "" → commitMessage summary (some d) = summary ++ "\n\n" ++ d) := by
  refine ⟨rfl, by simp [commitMessage], fun hd => by simp [commitMessage, hd]⟩

/-- C9 witness: a concrete non-empty description. -/
theorem commitMessage_spec_witness :
    commitMessage "feat: add parser" (some "Adds the new parser.") =
      "feat: add parser" ++ "\n\n" ++ "Adds the new parser." :=
  (commitMessage_spec "feat: add parser" "Adds the new parser.").2.2 (by decide)

/-- C8: after every successful `executeCommit` the history handed to
`saveHistory` has at most 10 records: the new record is appended, the
result is the suffix of most recent records, nothing is dropped while
the appended history fits in 10, and exactly the most recent 10 remain
once it would exceed 10. -/
theorem saveHistoryAfterCommit_spec {α : Type} (history : List α) (commitRecord : α) :
    (saveHistoryAfterCommit history commitRecord).length ≤ 10 ∧
    saveHistoryAfterCommit history commitRecord =
      (history ++ [commitRecord]).drop (history.length + 1 - 10) ∧
    saveHistoryAfterCommit history commitRecord <:+ history ++ [commitRecord] ∧
    (history.length < 10 →
      saveHistoryAfterCommit history commitRecord = history ++ [commitRecord]) ∧
    (10 ≤ history.length → (saveHistoryAfterCommit history commitRecord).length = 10) := by
  have hlen : (history ++ [commitRecord]).length = history.length + 1 := by simp
  unfold saveHistoryAfterCommit
  dsimp only
  split_ifs with h
  · rw [hlen] at h ⊢
    refine ⟨?_, rfl, List.drop_suffix _ _, fun hlt => absurd h (by omega), fun _ => ?_⟩
    · rw [List.length_drop, hlen]; omega
    · rw [List.length_drop, hlen]; omega
  · rw [hlen] at h
    refine ⟨by rw [hlen]; omega, ?_, List.suffix_refl _, fun _ => rfl,
      fun hge => absurd h (by omega)⟩
    have : history.length + 1 - 10 = 0 := by omega
    rw [this, List.drop_zero]

/-- C8 witness: a short history grows by one; a full history of 10 stays
at exactly 10 records. -/
theorem saveHistoryAfterCommit_spec_witness :
    saveHistoryAfterCommit [1, 2] 3 = [1, 2] ++ [3] ∧
    (saveHistoryAfterCommit [0, 1, 2, 3, 4, 5, 6, 7, 8, 9] 10).length = 10 :=
  ⟨(saveHistoryAfterCommit_spec [1, 2] 3).2.2.2.1 (by decide),
    (saveHistoryAfterCommit_spec [0, 1, 2, 3, 4, 5, 6, 7, 8, 9] 10).2.2.2.2 (by decide)⟩

/-- C2: with `maxAttempts = 3`, when every attempt fails the completion
service is invoked exactly 3 times, the engine sleeps `2^1` and `2^2`
time units (of 1000 ms) between the consecutive failed attempts, and the
final fatal error carries the last underlying message; when attempt 1
fails and attempt 2 succeeds there are exactly 2 invocations and one
`2^1`-unit sleep; when attempt 1 succeeds there is exactly 1 invocation
and no sleep. -/
theorem generateCommitMessage_retry_spec (completions : Nat → ApiResult)
    (strict : String → Option CommitData) :
    ((∀ a, 1 ≤ a → a ≤ 3 → ∃ m, attemptOutcome completions strict a = .error m) →
      (generateCommitMessage completions strict).calls = 3 ∧
      (generateCommitMessage completions strict).delays = [2 ^ 1 * 1000, 2 ^ 2 * 1000] ∧
      ∀ m, attemptOutcome completions strict 3 = .error m →
        (generateCommitMessage completions strict).result =
          .error ("Failed to generate commit message after 3 attempts. Last error: " ++ m)) ∧
    (∀ commitData, (∃ m, attemptOutcome completions strict 1 = .error m) →
      attemptOutcome completions strict 2 = .ok commitData →
      generateCommitMessage completions strict = ⟨2, [2 ^ 1 * 1000], .ok commitData⟩) ∧
    (∀ commitData, attemptOutcome completions strict 1 = .ok commitData →
      generateCommitMessage completions strict = ⟨1, [], .ok commitData⟩) := by
  have hrange : List.range' 1 maxRetries = [1, 2, 3] := by decide
  have htos : toString maxRetries = "3" := by decide
  refine ⟨fun hall => ?_, fun commitData h1 h2 => ?_, fun commitData h1 => ?_⟩
  · obtain ⟨m1, h1⟩ := hall 1 (by norm_num) (by norm_num)
    obtain ⟨m2, h2⟩ := hall 2 (by norm_num) (by norm_num)
    obtain ⟨m3, h3⟩ := hall 3 (by norm_num) (by norm_num)
    have hrun : generateCommitMessage completions strict =
        ⟨3, [2 ^ 1 * 1000, 2 ^ 2 * 1000],
          .error ("Failed to generate commit message after 3 attempts. Last error: " ++ m3)⟩ := by
      unfold generateCommitMessage
      rw [hrange]
      simp [runAttempts, h1, h2, h3, htos]
    refine ⟨by rw [hrun], by rw [hrun], fun m hm => ?_⟩
    rw [h3] at hm
    cases hm
    rw [hrun]
  · obtain ⟨m1, h1⟩ := h1
    unfold generateCommitMessage
    rw [hrange]
    simp [runAttempts, h1, h2]
  · unfold generateCommitMessage
    rw [hrange]
    simp [runAttempts, h1]

/-- A concrete parsed proposal used to exercise the retry engine. -/
def exampleCommit : CommitData :=
  { summary := "fix: retry"
    description := ""
    type := "fix"
    scope := none
    breaking := false
    issues := []
    changes := []
    selectedFiles := []
    fullMessage := "fix: retry"
    parseSuccess := true }

/-- C2 witness: a run where every call fails with a network error makes
exactly 3 calls and raises the fatal error with that message; a run
whose first response is unparseable and whose second parses makes
exactly 2 calls, sleeping `2^1` units once. -/
theorem generateCommitMessage_retry_spec_witness :
    (generateCommitMessage (fun _ => ApiResult.fail "socket hang up") (fun _ => none)).calls = 3 ∧
    (generateCommitMessage (fun _ => ApiResult.fail "socket hang up") (fun _ => none)).result =
      .error ("Failed to generate commit message after 3 attempts. Last error: "
        ++ "socket hang up") ∧
    generateCommitMessage (fun a => if a = 1 then ApiResult.ok "bad" else ApiResult.ok "good")
        (fun t => if t = "good" then some exampleCommit else none) =
      ⟨2, [2 ^ 1 * 1000], .ok exampleCommit⟩ := by
  have hfail := generateCommitMessage_retry_spec (fun _ => ApiResult.fail "socket hang up")
    (fun _ => none)
  have hall : ∀ a, 1 ≤ a → a ≤ 3 →
      ∃ m, attemptOutcome (fun _ => ApiResult.fail "socket hang up") (fun _ => none) a =
        .error m :=
    fun a _ _ => ⟨"socket hang up", rfl⟩
  refine ⟨(hfail.1 hall).1, (hfail.1 hall).2.2 "socket hang up" rfl, ?_⟩
  exact (generateCommitMessage_retry_spec
      (fun a => if a = 1 then ApiResult.ok "bad" else ApiResult.ok "good")
      (fun t => if t = "good" then some exampleCommit else none)).2.1 exampleCommit
    ⟨"Generated commit message could not be parsed or was empty", rfl⟩ rfl

/-! ### Trace decomposition lemmas for the grouped orchestrator -/

/-- A cancel-free prefix of pass 1 contributes its event blocks, its
skipped proposals and its successful-commit count, and the pass
continues on the rest. -/
theorem runFirstPass_append (d1 : α → Action) (applyOk : α → Bool) (l₁ l₂ : List α)
    (h : ∀ p ∈ l₁, d1 p ≠ Action.cancel) : ∀ count,
    runFirstPass d1 applyOk (l₁ ++ l₂) count =
      (l₁.flatMap (pass1Events d1 applyOk) ++
          (runFirstPass d1 applyOk l₂ (count + successCount d1 applyOk l₁)).1,
        skippedOf d1 l₁ ++ (runFirstPass d1 applyOk l₂ (count + successCount d1 applyOk l₁)).2.1,
        (runFirstPass d1 applyOk l₂ (count + successCount d1 applyOk l₁)).2.2.1,
        (runFirstPass d1 applyOk l₂ (count + successCount d1 applyOk l₁)).2.2.2) := by
  induction l₁ with
  | nil =>
    intro count
    simp [pass1Events, skippedOf, successCount, acceptedOf]
  | cons p l₁ ih =>
    intro count
    have hp : d1 p ≠ Action.cancel := h p (List.mem_cons_self p l₁)
    have hrest : ∀ q ∈ l₁, d1 q ≠ Action.cancel := fun q hq => h q (List.mem_cons_of_mem p hq)
    have ihc := ih hrest
    cases hd : d1 p with
    | cancel => exact absurd hd hp
    | accept =>
      cases hap : applyOk p with
      | true =>
        have hsc : successCount d1 applyOk (p :: l₁) = 1 + successCount d1 applyOk l₁ := by
          simp [successCount, acceptedOf, List.filter_cons, hd, hap, Nat.add_comm]
        have hsk : skippedOf d1 (p :: l₁) = skippedOf d1 l₁ := by
          simp [skippedOf, List.filter_cons, hd]
        have hfm : (p :: l₁).flatMap (pass1Events d1 applyOk) =
            GEvent.offer1 p :: GEvent.commitOk p :: l₁.flatMap (pass1Events d1 applyOk) := by
          simp [pass1Events, hd, hap]
        have hstep : runFirstPass d1 applyOk ((p :: l₁) ++ l₂) count =
            (GEvent.offer1 p :: GEvent.commitOk p ::
                (runFirstPass d1 applyOk (l₁ ++ l₂) (count + 1)).1,
              (runFirstPass d1 applyOk (l₁ ++ l₂) (count + 1)).2.1,
              (runFirstPass d1 applyOk (l₁ ++ l₂) (count + 1)).2.2.1,
              (runFirstPass d1 applyOk (l₁ ++ l₂) (count + 1)).2.2.2) := by
          simp [runFirstPass, hd, hap]
        rw [hstep, ihc (count + 1), hsc, hsk, hfm,
          show count + (1 + successCount d1 applyOk l₁) =
            count + 1 + successCount d1 applyOk l₁ by omega]
        rfl
      | false =>
        have hsc : successCount d1 applyOk (p :: l₁) = successCount d1 applyOk l₁ := by
          simp [successCount, acceptedOf, List.filter_cons, hd, hap]
        have hsk : skippedOf d1 (p :: l₁) = skippedOf d1 l₁ := by
          simp [skippedOf, List.filter_cons, hd]
        have hfm : (p :: l₁).flatMap (pass1Events d1 applyOk) =
            GEvent.offer1 p :: GEvent.commitFail p :: l₁.flatMap (pass1Events d1 applyOk) := by
          simp [pass1Events, hd, hap]
        have hstep : runFirstPass d1 applyOk ((p :: l₁) ++ l₂) count =
            (GEvent.offer1 p :: GEvent.commitFail p ::
                (runFirstPass d1 applyOk (l₁ ++ l₂) count).1,
              (runFirstPass d1 applyOk (l₁ ++ l₂) count).2.1,
              (runFirstPass d1 applyOk (l₁ ++ l₂) count).2.2.1,
              (runFirstPass d1 applyOk (l₁ ++ l₂) count).2.2.2) := by
          simp [runFirstPass, hd, hap]
        rw [hstep, ihc count, hsc, hsk, hfm]
        rfl
    | skip =>
      have hsc : successCount d1 applyOk (p :: l₁) = successCount d1 applyOk l₁ := by
        simp [successCount, acceptedOf, List.filter_cons, hd]
      have hsk : skippedOf d1 (p :: l₁) = p :: skippedOf d1 l₁ := by
        simp [skippedOf, List.filter_cons, hd]
      have hfm : (p :: l₁).flatMap (pass1Events d1 applyOk) =
          GEvent.offer1 p :: l₁.flatMap (pass1Events d1 applyOk) := by
        simp [pass1Events, hd]
      have hstep : runFirstPass d1 applyOk ((p :: l₁) ++ l₂) count =
          (GEvent.offer1 p :: (runFirstPass d1 applyOk (l₁ ++ l₂) count).1,
            p :: (runFirstPass d1 applyOk (l₁ ++ l₂) count).2.1,
            (runFirstPass d1 applyOk (l₁ ++ l₂) count).2.2.1,
            (runFirstPass d1 applyOk (l₁ ++ l₂) count).2.2.2) := by
        simp [runFirstPass, hd]
      rw [hstep, ihc count, hsc, hsk, hfm]
      rfl

/-- A cancel-free pass 1 visits every proposal, producing the expected
trace, skipped list and count increment, and is not cancelled. -/
theorem runFirstPass_noCancel (d1 : α → Action) (applyOk : α → Bool) (l : List α)
    (h : ∀ p ∈ l, d1 p ≠ Action.cancel) (count : Nat) :
    runFirstPass d1 applyOk l count =
      (l.flatMap (pass1Events d1 applyOk), skippedOf d1 l,
        count + successCount d1 applyOk l, false) := by
  have := runFirstPass_append d1 applyOk l [] h count
  simpa [runFirstPass] using this

/-- A pass-1 cancel on the head proposal records the offer, the cancel
message and — only when the running count is positive — the count
warning, and stops. -/
theorem runFirstPass_cancelHead (d1 : α → Action) (applyOk : α → Bool) (p : α)
    (rest : List α) (count : Nat) (h : d1 p = Action.cancel) :
    runFirstPass d1 applyOk (p :: rest) count =
      (GEvent.offer1 p :: GEvent.cancelMsg ::
          (if count > 0 then [GEvent.warnCount count] else []),
        [], count, true) := by
  simp [runFirstPass, h]

/-- The second pass visits every listed proposal. -/
theorem runSecondPass_eq (d2 : α → Action) (applyOk : α → Bool) : ∀ (l : List α) (count : Nat),
    runSecondPass d2 applyOk l count =
      (l.flatMap (pass2Events d2 applyOk), count + successCount d2 applyOk l) := by
  intro l
  induction l with
  | nil => intro count; simp [runSecondPass, successCount, acceptedOf]
  | cons p rest ih =>
    intro count
    cases hd : d2 p with
    | accept =>
      cases hap : applyOk p with
      | true =>
        simp only [runSecondPass, hd, hap, if_true, ih]
        simp [pass2Events, successCount, acceptedOf, hd, hap, List.filter_cons,
          Nat.add_comm, Nat.add_assoc, Nat.add_left_comm]
      | false =>
        simp only [runSecondPass, hd, hap, Bool.false_eq_true, if_false, ih]
        simp [pass2Events, successCount, acceptedOf, hd, hap, List.filter_cons]
    | skip =>
      simp only [runSecondPass, hd, ih]
      simp [pass2Events, successCount, acceptedOf, hd, List.filter_cons]
    | cancel =>
      simp only [runSecondPass, hd, ih]
      simp [pass2Events, successCount, acceptedOf, hd, List.filter_cons]

/-- `offersOf` distributes over append. -/
theorem offersOf_append (a b : List (GEvent α)) :
    offersOf (a ++ b) = offersOf a ++ offersOf b :=
  List.filterMap_append a b _

/-- `resultsOf` distributes over append. -/
theorem resultsOf_append (a b : List (GEvent α)) :
    resultsOf (a ++ b) = resultsOf a ++ resultsOf b :=
  List.filterMap_append a b _

/-- Pass-1 blocks offer exactly the listed proposals, in order. -/
theorem offersOf_flatMap_pass1 (d1 : α → Action) (applyOk : α → Bool) : ∀ l : List α,
    offersOf (l.flatMap (pass1Events d1 applyOk)) = l := by
  intro l
  induction l with
  | nil => rfl
  | cons p rest ih =>
    cases hd : d1 p <;> cases hap : applyOk p <;>
      simp [pass1Events, offersOf, hd, hap, List.filterMap_append] <;>
      simpa [offersOf] using ih

/-- Pass-1 blocks record exactly the accepted proposals' outcomes, in
order. -/
theorem resultsOf_flatMap_pass1 (d1 : α → Action) (applyOk : α → Bool) : ∀ l : List α,
    resultsOf (l.flatMap (pass1Events d1 applyOk)) =
      (acceptedOf d1 l).map fun p => (p, applyOk p) := by
  intro l
  induction l with
  | nil => rfl
  | cons p rest ih =>
    cases hd : d1 p <;> cases hap : applyOk p <;>
      simp [pass1Events, resultsOf, acceptedOf, hd, hap, List.filterMap_append,
        List.filter_cons] <;>
      simpa [resultsOf, acceptedOf] using ih

/-- Pass-1 blocks never contain a pass-2 offer. -/
theorem offer2_not_mem_flatMap_pass1 (d1 : α → Action) (applyOk : α → Bool) (q : α) :
    ∀ l : List α, GEvent.offer2 q ∉ l.flatMap (pass1Events d1 applyOk) := by
  intro l
  induction l with
  | nil => simp
  | cons p rest ih =>
    cases hd : d1 p <;> cases hap : applyOk p <;>
      simp_all [pass1Events, hd, hap]

/-- A success outcome is recorded exactly when the trace holds the
corresponding commit event. -/
theorem mem_resultsOf_true (tr : List (GEvent α)) (p : α) :
    (p, true) ∈ resultsOf tr ↔ GEvent.commitOk p ∈ tr := by
  simp only [resultsOf, List.mem_filterMap]
  constructor
  · rintro ⟨e, he, hfe⟩
    cases e <;> simp_all
  · intro h
    exact ⟨GEvent.commitOk p, h, rfl⟩

/-- A failure outcome is recorded exactly when the trace holds the
corresponding failed-commit event. -/
theorem mem_resultsOf_false (tr : List (GEvent α)) (p : α) :
    (p, false) ∈ resultsOf tr ↔ GEvent.commitFail p ∈ tr := by
  simp only [resultsOf, List.mem_filterMap]
  constructor
  · rintro ⟨e, he, hfe⟩
    cases e <;> simp_all
  · intro h
    exact ⟨GEvent.commitFail p, h, rfl⟩

/-- Every event of the first pass is in the run's trace. -/
theorem mem_of_mem_firstPass (d1 d2 : α → Action) (applyOk : α → Bool) (l : List α)
    {e : GEvent α} (h : e ∈ (runFirstPass d1 applyOk l 0).1) :
    e ∈ (processGroupedCommit d1 d2 applyOk l).1 := by
  unfold processGroupedCommit
  dsimp only
  by_cases hcan : (runFirstPass d1 applyOk l 0).2.2.2 <;>
    simp [hcan, List.mem_append, h]

/-- The head proposal of the remaining pass-1 worklist is always
offered. -/
theorem offer1_mem_runFirstPass (d1 : α → Action) (applyOk : α → Bool) (q : α)
    (rest : List α) (count : Nat) :
    GEvent.offer1 q ∈ (runFirstPass d1 applyOk (q :: rest) count).1 := by
  cases hd : d1 q <;> cases hap : applyOk q <;> simp [runFirstPass, hd, hap]

section Counting

variable [DecidableEq α]

/-- Pass-1 blocks offer each proposal as often as it is listed. -/
theorem count_offer1_flatMap_pass1 (d1 : α → Action) (applyOk : α → Bool) (p : α) :
    ∀ l : List α,
      (l.flatMap (pass1Events d1 applyOk)).count (GEvent.offer1 p) = l.count p := by
  intro l
  induction l with
  | nil => rfl
  | cons q rest ih =>
    cases hd : d1 q <;> cases hap : applyOk q <;>
      simp [pass1Events, hd, hap, List.count_append, List.count_cons, ih]

/-- Pass-2 blocks offer each listed proposal as often as it is listed. -/
theorem count_offer2_flatMap_pass2 (d2 : α → Action) (applyOk : α → Bool) (p : α) :
    ∀ l : List α,
      (l.flatMap (pass2Events d2 applyOk)).count (GEvent.offer2 p) = l.count p := by
  intro l
  induction l with
  | nil => rfl
  | cons q rest ih =>
    cases hd : d2 q <;> cases hap : applyOk q <;>
      simp [pass2Events, hd, hap, List.count_append, List.count_cons, ih]

end Counting

/-- Pass-2 blocks never contain a pass-1 offer. -/
theorem offer1_not_mem_flatMap_pass2 (d2 : α → Action) (applyOk : α → Bool) (q : α) :
    ∀ l : List α, GEvent.offer1 q ∉ l.flatMap (pass2Events d2 applyOk) := by
  intro l
  induction l with
  | nil => simp
  | cons p rest ih =>
    cases hd : d2 p <;> cases hap : applyOk p <;> simp_all [pass2Events, hd, hap]

/-- A commit-success event can only come from an accepted proposal whose
apply succeeded. -/
theorem mem_pass1Events_commitOk (d1 : α → Action) (applyOk : α → Bool) (q p : α)
    (h : GEvent.commitOk p ∈ pass1Events d1 applyOk q) :
    p = q ∧ d1 q = Action.accept ∧ applyOk q = true := by
  cases hd : d1 q <;> cases hap : applyOk q <;>
    simp [pass1Events, hd, hap] at h
  exact ⟨h, rfl, rfl⟩

/-- A pass-2 commit-success event can only come from an accepted skipped
proposal whose apply succeeded. -/
theorem mem_pass2Events_commitOk (d2 : α → Action) (applyOk : α → Bool) (q p : α)
    (h : GEvent.commitOk p ∈ pass2Events d2 applyOk q) :
    p = q ∧ d2 q = Action.accept ∧ applyOk q = true := by
  cases hd : d2 q <;> cases hap : applyOk q <;>
    simp [pass2Events, hd, hap] at h
  exact ⟨h, rfl, rfl⟩

/-- A proposal the first pass skips is never committed by that pass. -/
theorem commitOk_not_mem_pass1_of_skip (d1 : α → Action) (applyOk : α → Bool) (p : α)
    (hskip : d1 p = Action.skip) :
    ∀ l : List α, GEvent.commitOk p ∉ l.flatMap (pass1Events d1 applyOk) := by
  intro l
  induction l with
  | nil => simp
  | cons q rest ih =>
    simp only [List.flatMap_cons, List.mem_append]
    rintro (h | h)
    · obtain ⟨rfl, hacc, -⟩ := mem_pass1Events_commitOk d1 applyOk q p h
      rw [hskip] at hacc
      exact Action.noConfusion hacc
    · exact ih h

/-- A proposal the second pass declines is never committed by that
pass. -/
theorem commitOk_not_mem_pass2_of_decline (d2 : α → Action) (applyOk : α → Bool) (p : α)
    (hdecl : d2 p ≠ Action.accept) :
    ∀ l : List α, GEvent.commitOk p ∉ l.flatMap (pass2Events d2 applyOk) := by
  intro l
  induction l with
  | nil => simp
  | cons q rest ih =>
    simp only [List.flatMap_cons, List.mem_append]
    rintro (h | h)
    · obtain ⟨rfl, hacc, -⟩ := mem_pass2Events_commitOk d2 applyOk q p h
      exact hdecl hacc
    · exact ih h

/-- A declined skipped proposal gets a decline event in pass 2. -/
theorem declineMsg_mem_pass2 (d2 : α → Action) (applyOk : α → Bool) (p : α)
    (l : List α) (hmem : p ∈ l) (hdecl : d2 p ≠ Action.accept) :
    GEvent.declineMsg p ∈ l.flatMap (pass2Events d2 applyOk) := by
  refine List.mem_flatMap.mpr ⟨p, hmem, ?_⟩
  cases hd : d2 p with
  | accept => exact absurd hd hdecl
  | skip => simp [pass2Events, hd]
  | cancel => simp [pass2Events, hd]

/-- C1 (amended): a Cancel in the first pass stops processing
immediately — exactly the proposals up to and including the cancelled
one are ever offered, only the pre-cancel accepted proposals have
recorded outcomes (already-applied commits are kept, nothing after
runs), the reported count is the number of pre-cancel successes, the
cancel message is printed and the already-applied warning appears
exactly when that count is positive, and no second-pass offer ever
happens; a Cancel in the second pass however does not stop processing:
it only declines its own proposal and the pass continues. -/
theorem processGroupedCommit_cancel_spec (d1 d2 : α → Action) (applyOk : α → Bool)
    (l₁ : List α) (p : α) (l₂ : List α)
    (hnc : ∀ q ∈ l₁, d1 q ≠ Action.cancel) (hc : d1 p = Action.cancel) :
    offersOf (processGroupedCommit d1 d2 applyOk (l₁ ++ p :: l₂)).1 = l₁ ++ [p] ∧
    resultsOf (processGroupedCommit d1 d2 applyOk (l₁ ++ p :: l₂)).1 =
      (acceptedOf d1 l₁).map (fun q => (q, applyOk q)) ∧
    (processGroupedCommit d1 d2 applyOk (l₁ ++ p :: l₂)).2 = successCount d1 applyOk l₁ ∧
    GEvent.cancelMsg ∈ (processGroupedCommit d1 d2 applyOk (l₁ ++ p :: l₂)).1 ∧
    (0 < successCount d1 applyOk l₁ →
      GEvent.warnCount (successCount d1 applyOk l₁) ∈
        (processGroupedCommit d1 d2 applyOk (l₁ ++ p :: l₂)).1) ∧
    (∀ q, GEvent.offer2 q ∉ (processGroupedCommit d1 d2 applyOk (l₁ ++ p :: l₂)).1) ∧
    (∀ (q : α) (rest : List α) (count : Nat), d2 q ≠ Action.accept →
      runSecondPass d2 applyOk (q :: rest) count =
        (GEvent.offer2 q :: GEvent.declineMsg q :: (runSecondPass d2 applyOk rest count).1,
          (runSecondPass d2 applyOk rest count).2)) := by
  have hfp : runFirstPass d1 applyOk (l₁ ++ p :: l₂) 0 =
      (l₁.flatMap (pass1Events d1 applyOk) ++
          GEvent.offer1 p :: GEvent.cancelMsg ::
            (if successCount d1 applyOk l₁ > 0 then
              [GEvent.warnCount (successCount d1 applyOk l₁)] else []),
        skippedOf d1 l₁, successCount d1 applyOk l₁, true) := by
    rw [runFirstPass_append d1 applyOk l₁ (p :: l₂) hnc 0,
      runFirstPass_cancelHead d1 applyOk p l₂ _ hc]
    simp
  have hpc : processGroupedCommit d1 d2 applyOk (l₁ ++ p :: l₂) =
      (l₁.flatMap (pass1Events d1 applyOk) ++
          GEvent.offer1 p :: GEvent.cancelMsg ::
            (if successCount d1 applyOk l₁ > 0 then
              [GEvent.warnCount (successCount d1 applyOk l₁)] else []),
        successCount d1 applyOk l₁) := by
    unfold processGroupedCommit
    rw [hfp]
    simp
  rw [hpc]
  refine ⟨?_, ?_, rfl, ?_, ?_, ?_, ?_⟩
  · rw [show (GEvent.offer1 p : GEvent α) :: GEvent.cancelMsg ::
        (if successCount d1 applyOk l₁ > 0 then
          [GEvent.warnCount (successCount d1 applyOk l₁)] else []) =
        [GEvent.offer1 p] ++ GEvent.cancelMsg ::
          (if successCount d1 applyOk l₁ > 0 then
            [GEvent.warnCount (successCount d1 applyOk l₁)] else []) from rfl,
      ← List.append_assoc, offersOf_append, offersOf_append,
      offersOf_flatMap_pass1]
    have : offersOf (GEvent.cancelMsg ::
        (if successCount d1 applyOk l₁ > 0 then
          [GEvent.warnCount (successCount d1 applyOk l₁)] else []) : List (GEvent α)) = [] := by
      split_ifs <;> simp [offersOf]
    rw [this]
    simp [offersOf]
  · rw [resultsOf_append, resultsOf_flatMap_pass1]
    have : resultsOf (GEvent.offer1 p :: GEvent.cancelMsg ::
        (if successCount d1 applyOk l₁ > 0 then
          [GEvent.warnCount (successCount d1 applyOk l₁)] else []) : List (GEvent α)) = [] := by
      split_ifs <;> simp [resultsOf]
    rw [this, List.append_nil]
  · simp
  · intro hpos
    simp [hpos, List.mem_append]
  · intro q
    simp only [List.mem_append, List.mem_cons]
    rintro (h | h | h | h)
    · exact offer2_not_mem_flatMap_pass1 d1 applyOk q l₁ h
    · exact GEvent.noConfusion h
    · exact GEvent.noConfusion h
    · split_ifs at h <;> simp at h
  · intro q rest count hdecl
    cases hd : d2 q with
    | accept => exact absurd hd hdecl
    | skip => simp [runSecondPass, hd]
    | cancel => simp [runSecondPass, hd]

/-- C1 counterexample: two concrete grouped runs refuting the claim as
stated.  First run: both proposals are skipped in pass 1; in pass 2
proposal `0` gets a Cancel, yet proposal `1` is still offered and
committed afterwards and the committed count is 1 — a second-pass Cancel
does not stop processing.  Second run: a pass-1 Cancel with zero
already-applied commits prints no count warning at all. -/
theorem processGroupedCommit_cancel_counterexample :
    (fun q => if q = 0 then Action.cancel else Action.accept) 0 = Action.cancel ∧
    processGroupedCommit (fun _ => Action.skip)
        (fun q => if q = 0 then Action.cancel else Action.accept) (fun _ => true) [0, 1] =
      ([GEvent.offer1 0, GEvent.offer1 1, GEvent.offer2 0, GEvent.declineMsg 0,
        GEvent.offer2 1, GEvent.commitOk 1], 1) ∧
    (fun _ : Nat => Action.cancel) 5 = Action.cancel ∧
    processGroupedCommit (fun _ => Action.cancel) (fun _ => Action.accept)
        (fun _ => true) [5] =
      ([GEvent.offer1 5, GEvent.cancelMsg], 0) := by
  refine ⟨rfl, by decide, rfl, by decide⟩

/-- C1 witness: a concrete pass-1 cancel after one successful commit. -/
theorem processGroupedCommit_cancel_spec_witness :
    offersOf (processGroupedCommit (fun q => if q = 0 then Action.accept else Action.cancel)
        (fun _ => Action.accept) (fun _ => true) [0, 1, 2]).1 = [0, 1] ∧
    (processGroupedCommit (fun q => if q = 0 then Action.accept else Action.cancel)
        (fun _ => Action.accept) (fun _ => true) [0, 1, 2]).2 = 1 := by
  have h := processGroupedCommit_cancel_spec
    (fun q => if q = 0 then Action.accept else Action.cancel)
    (fun _ => Action.accept) (fun _ => true) [0] 1 [2]
    (by decide) (by decide)
  exact ⟨h.1, h.2.2.1.trans (by decide)⟩

/-- C4: a proposal that is accepted but fails to apply has its failure
recorded in the trace and the next proposal of the same pass is still
offered; in particular for three accepted proposals A, B, C where only B
fails to apply, the run produces exactly the outcome order
[A success, B failure, C success] and a committed count of 2. -/
theorem processGroupedCommit_failure_isolation (d1 d2 : α → Action) (applyOk : α → Bool)
    (l₁ : List α) (p : α) (l₂ : List α) :
    ((∀ q ∈ l₁, d1 q ≠ Action.cancel) → d1 p = Action.accept → applyOk p = false →
      (p, false) ∈ resultsOf (processGroupedCommit d1 d2 applyOk (l₁ ++ p :: l₂)).1 ∧
      ∀ q rest, l₂ = q :: rest →
        GEvent.offer1 q ∈ (processGroupedCommit d1 d2 applyOk (l₁ ++ p :: l₂)).1) ∧
    (∀ (a b c : α) (ap2 : α → Bool), ap2 a = true → ap2 b = false → ap2 c = true →
      processGroupedCommit (fun _ => Action.accept) d2 ap2 [a, b, c] =
        ([GEvent.offer1 a, GEvent.commitOk a, GEvent.offer1 b, GEvent.commitFail b,
          GEvent.offer1 c, GEvent.commitOk c], 2)) := by
  constructor
  · intro hnc hacc hfail
    have hpre : ∀ q ∈ l₁ ++ [p], d1 q ≠ Action.cancel := by
      intro q hq
      rcases List.mem_append.mp hq with h | h
      · exact hnc q h
      · rw [List.mem_singleton.mp h, hacc]
        simp
    have hassoc : l₁ ++ p :: l₂ = (l₁ ++ [p]) ++ l₂ := by simp
    have hfp := runFirstPass_append d1 applyOk (l₁ ++ [p]) l₂ hpre 0
    constructor
    · rw [mem_resultsOf_false]
      apply mem_of_mem_firstPass
      rw [hassoc, hfp]
      apply List.mem_append_left
      rw [List.flatMap_append]
      apply List.mem_append_right
      simp [pass1Events, hacc, hfail]
    · intro q rest hl₂
      apply mem_of_mem_firstPass
      rw [hassoc, hfp]
      apply List.mem_append_right
      rw [hl₂]
      exact offer1_mem_runFirstPass d1 applyOk q rest _
  · intro a b c ap2 ha hb hc
    simp [processGroupedCommit, runFirstPass, runSecondPass, ha, hb, hc]

/-- C4 witness: concrete proposals 10, 20, 30 where only 20 fails to
apply. -/
theorem processGroupedCommit_failure_isolation_witness :
    processGroupedCommit (fun _ => Action.accept) (fun _ => Action.accept)
        (fun q => decide (q ≠ 20)) [10, 20, 30] =
      ([GEvent.offer1 10, GEvent.commitOk 10, GEvent.offer1 20, GEvent.commitFail 20,
        GEvent.offer1 30, GEvent.commitOk 30], 2) ∧
    (20, false) ∈ resultsOf (processGroupedCommit (fun _ => Action.accept)
        (fun _ => Action.accept) (fun q => decide (q ≠ 20)) ([10] ++ 20 :: [30])).1 :=
  ⟨(processGroupedCommit_failure_isolation (fun _ => Action.accept) (fun _ => Action.accept)
      (fun q => decide (q ≠ 20)) [10] 20 [30]).2 10 20 30 (fun q => decide (q ≠ 20))
      (by decide) (by decide) (by decide),
    ((processGroupedCommit_failure_isolation (fun _ => Action.accept) (fun _ => Action.accept)
      (fun q => decide (q ≠ 20)) [10] 20 [30]).1 (by decide) (by decide) (by decide)).1⟩

/-- C5: in a run with pairwise-distinct proposals where no pass-1
decision is Cancel, a proposal skipped in the first pass is offered
exactly once in each of the two passes (so exactly once more after its
first offer, and never again — there is no third pass), and if it is not
accepted in the second pass it is declined there and never committed in
that run. -/
theorem processGroupedCommit_skip_spec [DecidableEq α] (d1 d2 : α → Action)
    (applyOk : α → Bool) (l : List α) (p : α)
    (hnc : ∀ q ∈ l, d1 q ≠ Action.cancel) (hnd : l.Nodup)
    (hmem : p ∈ l) (hskip : d1 p = Action.skip) :
    (processGroupedCommit d1 d2 applyOk l).1.count (GEvent.offer1 p) = 1 ∧
    (processGroupedCommit d1 d2 applyOk l).1.count (GEvent.offer2 p) = 1 ∧
    (d2 p ≠ Action.accept →
      GEvent.declineMsg p ∈ (processGroupedCommit d1 d2 applyOk l).1 ∧
      GEvent.commitOk p ∉ (processGroupedCommit d1 d2 applyOk l).1 ∧
      (p, true) ∉ resultsOf (processGroupedCommit d1 d2 applyOk l).1) := by
  have hpc : processGroupedCommit d1 d2 applyOk l =
      (l.flatMap (pass1Events d1 applyOk) ++
          (skippedOf d1 l).flatMap (pass2Events d2 applyOk),
        successCount d1 applyOk l + successCount d2 applyOk (skippedOf d1 l)) := by
    unfold processGroupedCommit
    rw [runFirstPass_noCancel d1 applyOk l hnc 0]
    simp [runSecondPass_eq]
  have hcount1 : l.count p = 1 := List.count_eq_one_of_mem hnd hmem
  have hskmem : p ∈ skippedOf d1 l :=
    List.mem_filter.mpr ⟨hmem, by simp [hskip]⟩
  rw [hpc]
  refine ⟨?_, ?_, fun hdecl => ⟨?_, ?_, ?_⟩⟩
  · rw [List.count_append, count_offer1_flatMap_pass1, hcount1,
      List.count_eq_zero.mpr (offer1_not_mem_flatMap_pass2 d2 applyOk p _)]
  · rw [List.count_append, count_offer2_flatMap_pass2,
      List.count_eq_zero.mpr (offer2_not_mem_flatMap_pass1 d1 applyOk p l)]
    simp only [skippedOf]
    rw [List.count_filter (by simp [hskip]), hcount1]
  · exact List.mem_append_right _ (declineMsg_mem_pass2 d2 applyOk p _ hskmem hdecl)
  · simp only [List.mem_append]
    rintro (h | h)
    · exact commitOk_not_mem_pass1_of_skip d1 applyOk p hskip l h
    · exact commitOk_not_mem_pass2_of_decline d2 applyOk p hdecl _ h
  · rw [mem_resultsOf_true]
    simp only [List.mem_append]
    rintro (h | h)
    · exact commitOk_not_mem_pass1_of_skip d1 applyOk p hskip l h
    · exact commitOk_not_mem_pass2_of_decline d2 applyOk p hdecl _ h

/-- C5 witness: proposal 7 is skipped in pass 1 and declined in pass 2,
proposal 8 is accepted in pass 1. -/
theorem processGroupedCommit_skip_spec_witness :
    ((processGroupedCommit (fun q => if q = 7 then Action.skip else Action.accept)
        (fun _ => Action.cancel) (fun _ => true) [7, 8]).1.count (GEvent.offer1 7) = 1 ∧
      (processGroupedCommit (fun q => if q = 7 then Action.skip else Action.accept)
        (fun _ => Action.cancel) (fun _ => true) [7, 8]).1.count (GEvent.offer2 7) = 1) ∧
    GEvent.commitOk 7 ∉ (processGroupedCommit
        (fun q => if q = 7 then Action.skip else Action.accept)
        (fun _ => Action.cancel) (fun _ => true) [7, 8]).1 := by
  have h := processGroupedCommit_skip_spec
    (fun q => if q = 7 then Action.skip else Action.accept)
    (fun _ => Action.cancel) (fun _ => true) [7, 8] 7
    (by decide) (by decide) (by decide) (by decide)
  exact ⟨⟨h.1, h.2.1⟩, (h.2.2 (by decide)).2.1⟩

/-- Sorting the deduplicated collection yields a strictly increasing
list with the same members. -/
theorem sortedDedup_spec (L : List Nat) :
    List.Chain' (· < ·) (List.insertionSort (· ≤ ·) L.dedup) ∧
    ∀ n, n ∈ List.insertionSort (· ≤ ·) L.dedup ↔ n ∈ L := by
  constructor
  · have hs : List.Pairwise (· ≤ ·) (List.insertionSort (· ≤ ·) L.dedup) :=
      List.sorted_insertionSort (· ≤ ·) L.dedup
    have hnd : (List.insertionSort (· ≤ ·) L.dedup).Nodup :=
      (List.perm_insertionSort (· ≤ ·) L.dedup).symm.nodup (List.nodup_dedup L)
    exact ((hs.and hnd).imp fun h => lt_of_le_of_ne h.1 h.2).chain'
  · intro n
    rw [(List.perm_insertionSort (· ≤ ·) L.dedup).mem_iff, List.mem_dedup]

/-- A line number is collected exactly when some line of the diff is a
hunk header whose effective new-file range covers it. -/
theorem hunkCover_mem (lines : List (List Char)) (n : Nat) :
    (n ∈ lines.flatMap fun line =>
      match matchHunkHeader line with
      | some (_, _, newStart, newCountOpt) =>
        List.range' newStart (effectiveNewCount newCountOpt)
      | none => []) ↔
    ∃ line ∈ lines, ∃ a b c dOpt, matchHunkHeader line = some (a, b, c, dOpt) ∧
      c ≤ n ∧ n < c + effectiveNewCount dOpt := by
  rw [List.mem_flatMap]
  constructor
  · rintro ⟨line, hline, hn⟩
    cases hm : matchHunkHeader line with
    | none =>
      rw [hm] at hn
      simp at hn
    | some v =>
      obtain ⟨a, b, c, dOpt⟩ := v
      rw [hm] at hn
      rw [List.mem_range'_1] at hn
      exact ⟨line, hline, a, b, c, dOpt, hm, hn.1, hn.2⟩
  · rintro ⟨line, hline, a, b, c, dOpt, hm, h1, h2⟩
    refine ⟨line, hline, ?_⟩
    rw [hm]
    exact List.mem_range'_1.mpr ⟨h1, h2⟩

/-- C6 counterexample: the deletion-only hunk `@@ -10,2 +9,0 @@` carries
an explicit new-file count of `0`, yet the code treats it like `1`
(`parseInt(m[4]) || 1` — `0` is falsy) and reports line 9, while the
claim's reading (`d` defaults to 1 only when omitted, so `+9,0` covers
lines `9..8`, i.e. none) yields the empty list. -/
theorem extractChangedLines_counterexample :
    matchHunkHeader ("@@ -10,2 +9,0 @@".toList) = some (10, some 2, 9, some 0) ∧
    extractChangedLines "@@ -10,2 +9,0 @@" = [9] ∧
    claimedExtractChangedLines "@@ -10,2 +9,0 @@" = [] := by
  refine ⟨by decide, by decide, by decide⟩

/-- C6 (amended): for every unified diff text the changed-line
extraction is strictly increasing (sorted and duplicate-free), and a
line number is listed exactly when some hunk header `@@ -a[,b] +c[,d] @@`
covers it with `c .. c + d' - 1`, where the effective count `d'` is `d`
except that it falls back to `1` both when `,d` is omitted and when `d`
is the explicit count `0`. -/
theorem extractChangedLines_spec (diffOutput : String) :
    List.Chain' (· < ·) (extractChangedLines diffOutput) ∧
    ∀ n, n ∈ extractChangedLines diffOutput ↔
      ∃ line ∈ splitOnNl diffOutput.toList, ∃ a b c dOpt,
        matchHunkHeader line = some (a, b, c, dOpt) ∧
        c ≤ n ∧ n < c + effectiveNewCount dOpt := by
  have heq : extractChangedLines diffOutput =
      List.insertionSort (· ≤ ·) ((splitOnNl diffOutput.toList).flatMap fun line =>
        match matchHunkHeader line with
        | some (_, _, newStart, newCountOpt) =>
          List.range' newStart (effectiveNewCount newCountOpt)
        | none => []).dedup := rfl
  rw [heq]
  exact ⟨(sortedDedup_spec _).1,
    fun n => ((sortedDedup_spec _).2 n).trans (hunkCover_mem _ n)⟩

/-! ### Interval-merging lemmas for the context-window algorithm -/

/-- Ordering of window start lines: monotone, and strictly monotone
except where both starts were clipped to line 1.  This is what the
windows of a strictly increasing changed-line list satisfy, and it is
transitive, which the merge loop needs. -/
def startLe (a b : Nat × Nat) : Prop :=
  a.1 ≤ b.1 ∧ (2 ≤ b.1 → a.1 < b.1)

/-- `startLe` is transitive. -/
theorem startLe_trans {a b c : Nat × Nat} (h1 : startLe a b) (h2 : startLe b c) :
    startLe a c :=
  ⟨le_trans h1.1 h2.1, fun h => lt_of_le_of_lt h1.1 (h2.2 h)⟩

/-- The windows of two changed lines in increasing order satisfy
`startLe`. -/
theorem lineWindow_startLe (radius totalLines : Nat) {L1 L2 : Nat} (h : L1 < L2) :
    startLe (lineWindow radius totalLines L1) (lineWindow radius totalLines L2) := by
  unfold startLe lineWindow
  constructor
  · omega
  · intro h2
    omega

/-- The merge loop keeps the open block's start and can only grow its
end. -/
theorem mergeGo_head (cs : Nat) : ∀ (ws : List (Nat × Nat)) (ce : Nat),
    ∃ ce2 tl, mergeGo (cs, ce) ws = (cs, ce2) :: tl ∧ ce ≤ ce2 := by
  intro ws
  induction ws with
  | nil => exact fun ce => ⟨ce, [], rfl, le_refl ce⟩
  | cons w rest ih =>
    intro ce
    obtain ⟨s, e⟩ := w
    by_cases hse : s ≤ ce + 1
    · obtain ⟨ce2, tl, heq, hle⟩ := ih (max ce e)
      exact ⟨ce2, tl, by simp [mergeGo, hse, heq], le_trans (le_max_left ce e) hle⟩
    · exact ⟨ce, mergeGo (s, e) rest, by simp [mergeGo, hse], le_refl ce⟩

/-- The merged blocks are pairwise separated: each block starts strictly
after the previous block's end plus one (non-overlapping and
non-adjacent), unconditionally. -/
theorem mergeGo_separated : ∀ (ws : List (Nat × Nat)) (cur : Nat × Nat),
    List.Chain' (fun a b : Nat × Nat => a.2 + 1 < b.1) (mergeGo cur ws) := by
  intro ws
  induction ws with
  | nil => intro cur; simp [mergeGo]
  | cons w rest ih =>
    intro cur
    obtain ⟨s, e⟩ := w
    by_cases hse : s ≤ cur.2 + 1
    · simpa [mergeGo, hse] using ih (cur.1, max cur.2 e)
    · obtain ⟨ce2, tl, heq, -⟩ := mergeGo_head s rest e
      have htail := ih (s, e)
      rw [heq] at htail
      simp only [mergeGo, hse, if_false, heq]
      exact List.chain'_cons.mpr ⟨by omega, htail⟩

/-- On a `startLe`-chained window list the merged blocks are sorted
strictly by start line. -/
theorem mergeGo_sorted : ∀ (ws : List (Nat × Nat)) (cur : Nat × Nat),
    List.Chain' startLe (cur :: ws) →
    List.Chain' (fun a b : Nat × Nat => a.1 < b.1) (mergeGo cur ws) := by
  intro ws
  induction ws with
  | nil => intro cur _; simp [mergeGo]
  | cons w rest ih =>
    intro cur hch
    obtain ⟨s, e⟩ := w
    obtain ⟨hR, hch2⟩ := List.chain'_cons.mp hch
    by_cases hse : s ≤ cur.2 + 1
    · have hch' : List.Chain' startLe ((cur.1, max cur.2 e) :: rest) := by
        cases rest with
        | nil => simp
        | cons w' rest' =>
          obtain ⟨hR2, hch3⟩ := List.chain'_cons.mp hch2
          exact List.chain'_cons.mpr ⟨startLe_trans ⟨hR.1, hR.2⟩ hR2, hch3⟩
      simpa [mergeGo, hse] using ih (cur.1, max cur.2 e) hch'
    · obtain ⟨ce2, tl, heq, -⟩ := mergeGo_head s rest e
      have htail := ih (s, e) hch2
      rw [heq] at htail
      simp only [mergeGo, hse, if_false, heq]
      refine List.chain'_cons.mpr ⟨?_, htail⟩
      exact hR.2 (by omega)

/-- Every window is contained in one of the merged blocks. -/
theorem mergeGo_covers : ∀ (ws : List (Nat × Nat)) (cur : Nat × Nat),
    List.Chain' (fun a b : Nat × Nat => a.1 ≤ b.1) (cur :: ws) →
    ∀ w ∈ cur :: ws, ∃ b ∈ mergeGo cur ws, b.1 ≤ w.1 ∧ w.2 ≤ b.2 := by
  intro ws
  induction ws with
  | nil =>
    intro cur _ w hw
    rw [List.mem_singleton.mp hw]
    exact ⟨cur, by simp [mergeGo], le_refl _, le_refl _⟩
  | cons w0 rest ih =>
    intro cur hch w hw
    obtain ⟨s, e⟩ := w0
    obtain ⟨hR, hch2⟩ := List.chain'_cons.mp hch
    by_cases hse : s ≤ cur.2 + 1
    · have hch' : List.Chain' (fun a b : Nat × Nat => a.1 ≤ b.1)
          ((cur.1, max cur.2 e) :: rest) := by
        cases rest with
        | nil => simp
        | cons w' rest' =>
          obtain ⟨hR2, hch3⟩ := List.chain'_cons.mp hch2
          exact List.chain'_cons.mpr ⟨le_trans hR hR2, hch3⟩
      have hres : mergeGo cur ((s, e) :: rest) = mergeGo (cur.1, max cur.2 e) rest := by
        simp [mergeGo, hse]
      rw [hres]
      rcases List.mem_cons.mp hw with hweq | hw'
      · rw [hweq]
        obtain ⟨b, hb, h1, h2⟩ := ih (cur.1, max cur.2 e) hch'
          (cur.1, max cur.2 e) (List.mem_cons_self _ _)
        exact ⟨b, hb, h1, le_trans (le_max_left _ _) h2⟩
      rcases List.mem_cons.mp hw' with hweq | hw''
      · rw [hweq]
        obtain ⟨b, hb, h1, h2⟩ := ih (cur.1, max cur.2 e) hch'
          (cur.1, max cur.2 e) (List.mem_cons_self _ _)
        exact ⟨b, hb, le_trans h1 hR, le_trans (le_max_right _ _) h2⟩
      · obtain ⟨b, hb, h1, h2⟩ := ih (cur.1, max cur.2 e) hch' w
          (List.mem_cons_of_mem _ hw'')
        exact ⟨b, hb, h1, h2⟩
    · have hres : mergeGo cur ((s, e) :: rest) = cur :: mergeGo (s, e) rest := by
        simp [mergeGo, hse]
      rw [hres]
      rcases List.mem_cons.mp hw with hweq | hw'
      · rw [hweq]
        exact ⟨cur, List.mem_cons_self _ _, le_refl _, le_refl _⟩
      · obtain ⟨b, hb, h1, h2⟩ := ih (s, e) hch2 w hw'
        exact ⟨b, List.mem_cons_of_mem _ hb, h1, h2⟩

/-- Merging a list of blocks that is already separated returns it
unchanged. -/
theorem mergeWindows_idempotent_aux : ∀ (ws : List (Nat × Nat)) (cur : Nat × Nat),
    List.Chain' (fun a b : Nat × Nat => a.2 + 1 < b.1) (cur :: ws) →
    mergeGo cur ws = cur :: ws := by
  intro ws
  induction ws with
  | nil => intro cur _; rfl
  | cons w rest ih =>
    intro cur hch
    obtain ⟨s, e⟩ := w
    obtain ⟨hR, hch2⟩ := List.chain'_cons.mp hch
    have hse : ¬ s ≤ cur.2 + 1 := by omega
    simp [mergeGo, hse, ih (s, e) hch2]

/-- Merging an already-merged (separated) block list is the identity. -/
theorem mergeWindows_idempotent (bs : List (Nat × Nat))
    (h : List.Chain' (fun a b : Nat × Nat => a.2 + 1 < b.1) bs) :
    mergeWindows bs = bs := by
  cases bs with
  | nil => rfl
  | cons b bs => exact mergeWindows_idempotent_aux bs b h

/-- C7: for any positive radius, any total line count, and any strictly
increasing (sorted, duplicate-free) changed-line list, the merged
context blocks are sorted strictly by start, pairwise non-overlapping
and non-adjacent (each start exceeds the previous end plus one), every
per-line window `[max(1, L - R), min(totalLines, L + R)]` is contained
in some block, and re-merging the merged blocks changes nothing. -/
theorem getContextBlocks_spec (changedLines : List Nat) (radius totalLines : Nat)
    (_hr : 0 < radius) (hs : List.Chain' (· < ·) changedLines) :
    List.Chain' (fun a b : Nat × Nat => a.1 < b.1)
      (getContextBlocks changedLines radius totalLines) ∧
    List.Chain' (fun a b : Nat × Nat => a.2 + 1 < b.1)
      (getContextBlocks changedLines radius totalLines) ∧
    (∀ L ∈ changedLines, ∃ b ∈ getContextBlocks changedLines radius totalLines,
      b.1 ≤ max 1 (L - radius) ∧ min totalLines (L + radius) ≤ b.2) ∧
    mergeWindows (getContextBlocks changedLines radius totalLines) =
      getContextBlocks changedLines radius totalLines := by
  have hmap : List.Chain' startLe (changedLines.map (lineWindow radius totalLines)) :=
    (List.chain'_map (lineWindow radius totalLines)).mpr
      (List.Chain'.imp (fun a b hab => lineWindow_startLe radius totalLines hab) hs)
  cases changedLines with
  | nil =>
    simp [getContextBlocks, mergeWindows]
  | cons L rest =>
    have hblocks : getContextBlocks (L :: rest) radius totalLines =
        mergeGo (lineWindow radius totalLines L)
          (rest.map (lineWindow radius totalLines)) := rfl
    rw [hblocks]
    rw [List.map_cons] at hmap
    have hsep := mergeGo_separated (rest.map (lineWindow radius totalLines))
      (lineWindow radius totalLines L)
    refine ⟨mergeGo_sorted _ _ hmap, hsep, ?_, ?_⟩
    · intro L' hL'
      have hcov := mergeGo_covers (rest.map (lineWindow radius totalLines))
        (lineWindow radius totalLines L)
        (List.Chain'.imp (fun a b hab => hab.1) hmap)
        (lineWindow radius totalLines L')
        (by
          rw [← List.map_cons]
          exact List.mem_map_of_mem (lineWindow radius totalLines) hL')
      obtain ⟨b, hb, h1, h2⟩ := hcov
      exact ⟨b, hb, h1, h2⟩
    · have := mergeGo_head (lineWindow radius totalLines L).1
        (rest.map (lineWindow radius totalLines)) (lineWindow radius totalLines L).2
      obtain ⟨ce2, tl, heq, -⟩ := this
      rw [show mergeGo (lineWindow radius totalLines L)
          (rest.map (lineWindow radius totalLines)) =
          mergeGo ((lineWindow radius totalLines L).1, (lineWindow radius totalLines L).2)
            (rest.map (lineWindow radius totalLines)) from rfl] at hsep ⊢
      exact mergeWindows_idempotent _ hsep

/-- C7 witness: the spec's own example — hunk lines 10-13 of a 20-line
file with radius 3 merge to the single block `[7, 16]`. -/
theorem getContextBlocks_spec_witness :
    getContextBlocks [10, 11, 12, 13] 3 20 = [(7, 16)] ∧
    List.Chain' (fun a b : Nat × Nat => a.2 + 1 < b.1) (getContextBlocks [10, 11, 12, 13] 3 20) ∧
    mergeWindows (getContextBlocks [10, 11, 12, 13] 3 20) =
      getContextBlocks [10, 11, 12, 13] 3 20 := by
  have h := getContextBlocks_spec [10, 11, 12, 13] 3 20 (by norm_num)
    (by norm_num [List.chain'_cons])
  exact ⟨by decide, h.2.1, h.2.2.2⟩

/-! ### Trim and join lemmas for the heuristic fallback parser -/

/-- The description accumulator of the fallback loop, as a function of
the qualifying lines it appended: each followed by a newline. -/
def joinNl (ls : List (List Char)) : List Char :=
  ls.flatMap fun t => t ++ ['\n']

/-- The qualifying description lines joined by single newlines — the
trimmed form of `joinNl`. -/
def intercalateNl : List (List Char) → List Char
  | [] => []
  | [t] => t
  | t :: rest => t ++ '\n' :: intercalateNl rest

/-- A trimmed string loses nothing when trimmed from the front. -/
theorem dropWhile_eq_self_of_trim {t : List Char} (h : trimChars t = t) :
    List.dropWhile isJsSpace t = t := by
  have hpre : trimChars t <+: List.dropWhile isJsSpace t :=
    List.rdropWhile_prefix isJsSpace (List.dropWhile isJsSpace t)
  have hsuf : List.dropWhile isJsSpace t <:+ t := List.dropWhile_suffix isJsSpace
  have hlen1 : (trimChars t).length ≤ (List.dropWhile isJsSpace t).length :=
    hpre.length_le
  have hlen2 : (List.dropWhile isJsSpace t).length ≤ t.length := hsuf.length_le
  exact hsuf.eq_of_length (by rw [h] at hlen1; omega)

/-- A trimmed string loses nothing when trimmed from the back. -/
theorem rdropWhile_eq_self_of_trim {t : List Char} (h : trimChars t = t) :
    List.rdropWhile isJsSpace t = t := by
  have hd := dropWhile_eq_self_of_trim h
  calc List.rdropWhile isJsSpace t
      = List.rdropWhile isJsSpace (List.dropWhile isJsSpace t) := by rw [hd]
    _ = trimChars t := rfl
    _ = t := h

/-- Trimming is idempotent. -/
theorem trimChars_trimChars (cs : List Char) : trimChars (trimChars cs) = trimChars cs := by
  have h1 : List.dropWhile isJsSpace (trimChars cs) = trimChars cs := by
    have hpre : trimChars cs <+: List.dropWhile isJsSpace cs :=
      List.rdropWhile_prefix isJsSpace (List.dropWhile isJsSpace cs)
    cases htc : trimChars cs with
    | nil => rfl
    | cons c u =>
      rw [htc] at hpre
      obtain ⟨r, hr⟩ := hpre
      have hdw : List.dropWhile isJsSpace (List.dropWhile isJsSpace cs) =
          List.dropWhile isJsSpace cs := List.dropWhile_idempotent isJsSpace cs
      rw [← hr, List.cons_append, List.dropWhile_cons] at hdw
      have hc : isJsSpace c = false := by
        by_contra hpc
        rw [if_pos (by simpa using hpc)] at hdw
        have := congrArg List.length hdw
        have hle : (List.dropWhile isJsSpace (u ++ r)).length ≤ (u ++ r).length :=
          (List.dropWhile_suffix isJsSpace).length_le
        simp [List.length_append] at this hle
        omega
      rw [List.dropWhile_cons, hc]
      simp
  show List.rdropWhile isJsSpace (List.dropWhile isJsSpace (trimChars cs)) = trimChars cs
  rw [h1]
  exact List.rdropWhile_idempotent isJsSpace (List.dropWhile isJsSpace cs)

/-- Prepending to a nonempty trimmed string does not change its
front-trim. -/
theorem dropWhile_eq_self_append {t : List Char} (ht : List.dropWhile isJsSpace t = t)
    (hne : t ≠ []) (x : List Char) :
    List.dropWhile isJsSpace (t ++ x) = t ++ x := by
  cases t with
  | nil => exact absurd rfl hne
  | cons c u =>
    have hc : isJsSpace c = false := by
      by_contra hpc
      rw [List.dropWhile_cons, if_pos (by simpa using hpc)] at ht
      have := congrArg List.length ht
      have hle : (List.dropWhile isJsSpace u).length ≤ u.length :=
        (List.dropWhile_suffix isJsSpace).length_le
      simp at this
      omega
    rw [List.cons_append, List.dropWhile_cons, hc]
    simp

/-- When the tail keeps a nonempty remainder under back-trimming, the
back-trim of an extended list splits off the prefix. -/
theorem rdropWhile_append (x J : List Char) (h : J.rdropWhile isJsSpace ≠ []) :
    (x ++ J).rdropWhile isJsSpace = x ++ J.rdropWhile isJsSpace := by
  have hne : ¬ (List.dropWhile isJsSpace J.reverse).isEmpty = true := by
    rw [List.isEmpty_iff]
    intro hempty
    apply h
    show (J.reverse.dropWhile isJsSpace).reverse = []
    rw [hempty]
    rfl
  show ((x ++ J).reverse.dropWhile isJsSpace).reverse = _
  rw [List.reverse_append, List.dropWhile_append, if_neg hne, List.reverse_append,
    List.reverse_reverse]
  rfl

/-- `intercalateNl` of a list headed by a nonempty line is nonempty. -/
theorem intercalateNl_ne_nil {u : List Char} {rest : List (List Char)} (hu : u ≠ []) :
    intercalateNl (u :: rest) ≠ [] := by
  cases rest <;> simp [intercalateNl, hu]

/-- Trimming the newline-terminated concatenation of trimmed nonempty
lines yields exactly the lines joined by single newlines. -/
theorem trim_joinNl : ∀ ls : List (List Char), (∀ t ∈ ls, trimChars t = t ∧ t ≠ []) →
    trimChars (joinNl ls) = intercalateNl ls := by
  intro ls
  induction ls with
  | nil => intro _; rfl
  | cons t rest ih =>
    intro h
    obtain ⟨htt, htne⟩ := h t (List.mem_cons_self t rest)
    have hdw : List.dropWhile isJsSpace t = t := dropWhile_eq_self_of_trim htt
    have hrd : List.rdropWhile isJsSpace t = t := rdropWhile_eq_self_of_trim htt
    cases rest with
    | nil =>
      show trimChars (joinNl [t]) = t
      have hj : joinNl [t] = t ++ ['\n'] := by simp [joinNl]
      rw [hj]
      show List.rdropWhile isJsSpace (List.dropWhile isJsSpace (t ++ ['\n'])) = t
      rw [dropWhile_eq_self_append hdw htne,
        List.rdropWhile_concat_pos isJsSpace t '\n' (by simp [isJsSpace]), hrd]
    | cons u rest' =>
      obtain ⟨hut, hune⟩ := h u (List.mem_cons_of_mem t (List.mem_cons_self u rest'))
      have hrest : ∀ t' ∈ u :: rest', trimChars t' = t' ∧ t' ≠ [] :=
        fun t' ht' => h t' (List.mem_cons_of_mem t ht')
      have ihc := ih hrest
      have hudw : List.dropWhile isJsSpace u = u := dropWhile_eq_self_of_trim hut
      set J := joinNl (u :: rest') with hJ
      have hJform : J = u ++ ('\n' :: joinNl rest') := by
        simp [hJ, joinNl]
      have hJdw : List.dropWhile isJsSpace J = J := by
        rw [hJform]
        exact dropWhile_eq_self_append hudw hune _
      have hJrd : List.rdropWhile isJsSpace J = intercalateNl (u :: rest') := by
        have : trimChars J = List.rdropWhile isJsSpace J := by
          show List.rdropWhile isJsSpace (List.dropWhile isJsSpace J) = _
          rw [hJdw]
        rw [← this, ihc]
      have hJrdne : J.rdropWhile isJsSpace ≠ [] := by
        rw [hJrd]
        exact intercalateNl_ne_nil hune
      have hjoin : joinNl (t :: u :: rest') = (t ++ ['\n']) ++ J := by
        simp [joinNl, hJ]
      rw [hjoin]
      show List.rdropWhile isJsSpace (List.dropWhile isJsSpace ((t ++ ['\n']) ++ J)) =
        intercalateNl (t :: u :: rest')
      rw [List.append_assoc t ['\n'] J,
        dropWhile_eq_self_append hdw htne (['\n'] ++ J),
        ← List.append_assoc t ['\n'] J,
        rdropWhile_append (t ++ ['\n']) J hJrdne, hJrd]
      show t ++ ['\n'] ++ intercalateNl (u :: rest') = intercalateNl (t :: u :: rest')
      rw [List.append_assoc]
      rfl

/-- Once a summary is chosen, the fallback loop appends exactly the
remaining qualifying lines (each newline-terminated) to the
description. -/
theorem fallbackScan_some (s : List Char) : ∀ (lines : List (List Char)) (d : List Char),
    fallbackScan lines (some s) d =
      (some s, d ++ joinNl ((lines.map trimChars).filter fallbackLineOk)) := by
  intro lines
  induction lines with
  | nil => intro d; simp [fallbackScan, joinNl]
  | cons line rest ih =>
    intro d
    by_cases hok : fallbackLineOk (trimChars line)
    · simp only [fallbackScan, hok, if_true, ih, List.map_cons, List.filter_cons]
      simp [hok, joinNl, List.append_assoc]
    · simp only [fallbackScan, hok, if_false, ih, List.map_cons, List.filter_cons]
      simp [hok]

/-- The fallback loop yields no summary exactly when no line qualifies;
otherwise the first qualifying line is the summary and the remaining
qualifying lines are appended to the description. -/
theorem fallbackScan_none : ∀ (lines : List (List Char)) (d : List Char),
    fallbackScan lines none d =
      match (lines.map trimChars).filter fallbackLineOk with
      | [] => (none, d)
      | q :: qs => (some q, d ++ joinNl qs) := by
  intro lines
  induction lines with
  | nil => intro d; rfl
  | cons line rest ih =>
    intro d
    by_cases hok : fallbackLineOk (trimChars line)
    · simp only [fallbackScan, hok, if_true, List.map_cons, List.filter_cons]
      simp [hok, fallbackScan_some]
    · simp only [fallbackScan, hok, if_false, List.map_cons, List.filter_cons]
      simp [hok, ih]

/-- A qualifying line is strictly longer than 10 characters. -/
theorem fallbackLineOk_length {t : List Char} (hok : fallbackLineOk t = true) :
    10 < t.length := by
  unfold fallbackLineOk at hok
  simp only [Bool.and_eq_true, decide_eq_true_eq] at hok
  exact hok.2

/-- C10: whenever the strict JSON path fails, the fallback considers
exactly the trimmed lines strictly longer than 10 characters that do not
start with a curly brace or a double quote and do not contain `JSON`;
with no such line the attempt yields no proposal, and otherwise the
proposal has the first qualifying line as summary, the remaining
qualifying lines joined by newlines (or the default text when there are
none) as description, type `chore`, no scope, `breaking = false`, and
empty issue, change and selected-file lists. -/
theorem parseCommitMessage_fallback_spec (strict : String → Option CommitData)
    (aiResponse : String) (hstrict : strict aiResponse = none) :
    (((splitOnNl (trimChars aiResponse.toList)).map trimChars).filter fallbackLineOk = [] →
      parseCommitMessage strict aiResponse = none) ∧
    ∀ q qrest,
      ((splitOnNl (trimChars aiResponse.toList)).map trimChars).filter fallbackLineOk =
        q :: qrest →
      parseCommitMessage strict aiResponse = some
        { summary := ⟨q⟩
          description := if qrest = [] then "Various updates and improvements"
            else ⟨intercalateNl qrest⟩
          type := "chore"
          scope := none
          breaking := false
          issues := []
          changes := []
          selectedFiles := []
          fullMessage := if qrest = [] then ⟨q⟩
            else ⟨q ++ '\n' :: '\n' :: intercalateNl qrest⟩
          parseSuccess := false } := by
  have hpm : parseCommitMessage strict aiResponse = parseFallbackText aiResponse := by
    unfold parseCommitMessage
    rw [hstrict]
  have heq : parseFallbackText aiResponse =
      (fun scanned : Option (List Char) × List Char =>
        match scanned.1 with
        | none => none
        | some summary =>
          some
            { summary := ⟨summary⟩
              description :=
                if (trimChars scanned.2).isEmpty then "Various updates and improvements"
                else ⟨trimChars scanned.2⟩
              type := "chore"
              scope := none
              breaking := false
              issues := []
              changes := []
              selectedFiles := []
              fullMessage :=
                if scanned.2.isEmpty then ⟨summary⟩
                else ⟨summary ++ '\n' :: '\n' :: trimChars scanned.2⟩
              parseSuccess := false })
        (fallbackScan (splitOnNl (trimChars aiResponse.toList)) none []) := rfl
  have hscan := fallbackScan_none (splitOnNl (trimChars aiResponse.toList)) []
  constructor
  · intro hqs
    rw [hpm, heq, hscan, hqs]
  · intro q qrest hqs
    have hmemfacts : ∀ t ∈ q :: qrest, trimChars t = t ∧ t ≠ [] := by
      intro t ht
      rw [← hqs] at ht
      have hmf := List.mem_filter.mp ht
      obtain ⟨l0, -, hl0⟩ := List.mem_map.mp hmf.1
      refine ⟨by rw [← hl0]; exact trimChars_trimChars l0, ?_⟩
      have hlen := fallbackLineOk_length hmf.2
      exact List.ne_nil_of_length_pos (by omega)
    have hrest : ∀ t ∈ qrest, trimChars t = t ∧ t ≠ [] :=
      fun t ht => hmemfacts t (List.mem_cons_of_mem q ht)
    have hdesc : trimChars (joinNl qrest) = intercalateNl qrest := trim_joinNl qrest hrest
    rw [hpm, heq, hscan, hqs]
    dsimp only
    rw [List.nil_append, hdesc]
    cases qrest with
    | nil => simp [joinNl, intercalateNl]
    | cons u rest' =>
      have hune : u ≠ [] := (hrest u (List.mem_cons_self u rest')).2
      have hne1 : intercalateNl (u :: rest') ≠ [] := intercalateNl_ne_nil hune
      have hne2 : joinNl (u :: rest') ≠ [] := by simp [joinNl]
      simp [List.isEmpty_iff, hne1, hne2]

/-- C10 witness: a two-line plain-text response yields the first line as
summary and the second as description with the constant defaults, and a
response whose only line is not strictly longer than 10 characters
yields no proposal. -/
theorem parseCommitMessage_fallback_spec_witness :
    parseCommitMessage (fun _ => none)
        "Update the widget rendering pipeline\nRefactor the frobnicator module" =
      some
        { summary := "Update the widget rendering pipeline"
          description := "Refactor the frobnicator module"
          type := "chore"
          scope := none
          breaking := false
          issues := []
          changes := []
          selectedFiles := []
          fullMessage :=
            "Update the widget rendering pipeline\n\nRefactor the frobnicator module"
          parseSuccess := false } ∧
    parseCommitMessage (fun _ => none) "short line" = none := by
  constructor
  · have h := (parseCommitMessage_fallback_spec (fun _ => none)
        "Update the widget rendering pipeline\nRefactor the frobnicator module" rfl).2
      "Update the widget rendering pipeline".toList
      ["Refactor the frobnicator module".toList] (by decide)
    rw [h]
    decide
  · exact (parseCommitMessage_fallback_spec (fun _ => none) "short line" rfl).1 (by decide)

end Smartcommit
